import Mathlib

/-!
Shallow embedding of the roster-reconciliation and rotation logic of
`src/bot.py` (a Torn company Discord bot), together with theorems checking
the specification's claims about it.

Conventions of the embedding:
* Python strings are Lean `String`s; where Python iterates over characters
  we work on `String.data : List Char`.  `str.lower()` / `str.casefold()`
  are modelled per-character by `Char.toLower`, which coincides with both on
  the ASCII range (all string comparisons made by the bot's data are ASCII).
* Python dicts that map employee names to the `"Y"`/`"N"` trained marker
  are modelled as insertion-ordered association lists `List (String × Bool)`
  (`true` for `"Y"`, `false` for `"N"`; the code only defaults missing keys
  with `"N"` and only compares against `"Y"`).
* The company snapshot's `company_employees` dict (id → record) is modelled
  as the list of its records in insertion order; the id key is never used by
  the ranking code except for iteration, and `emp["name"]` is a required
  field of each record.
* `trains_available` can be any JSON value in the persisted document, so it
  is modelled by a small Python-value type (`PyVal`); `int(x or 0)` is
  modelled with explicit truthiness and a partial string-to-int parse that
  returns `none` exactly when Python `int` raises.
-/

namespace TornBot

/-! ### Python string primitives (on `List Char`) -/

/-- Python whitespace test; agrees with `Char.isWhitespace` on the ASCII
whitespace that `re`'s `\s` and `str.strip()` treat as space. -/
def pyWS (c : Char) : Bool := c.isWhitespace

/-- Python `str.strip()`: drop leading and trailing whitespace. -/
def stripList (l : List Char) : List Char :=
  ((l.dropWhile pyWS).reverse.dropWhile pyWS).reverse

/-- Helper for `collapseWS`: the flag records whether the previous character
was whitespace (so that a run contributes a single space). -/
def collapseWSAux : Bool → List Char → List Char
  | _, [] => []
  | prevWS, c :: rest =>
    if pyWS c then
      if prevWS then collapseWSAux true rest
      else ' ' :: collapseWSAux true rest
    else c :: collapseWSAux false rest

/-- Python `re.sub(r"\s+", " ", s)`: collapse every whitespace run to one
space. -/
def collapseWS (l : List Char) : List Char := collapseWSAux false l

/-- Per-character lowercasing, modelling `str.lower()` (and `str.casefold()`,
which agrees with it on ASCII). -/
def lowerList (l : List Char) : List Char := l.map Char.toLower

/-- Python string `<=` (lexicographic by code point), as a Bool. -/
def charListLe : List Char → List Char → Bool
  | [], _ => true
  | _ :: _, [] => false
  | a :: as, b :: bs =>
    if a.toNat < b.toNat then true
    else if b.toNat < a.toNat then false
    else charListLe as bs

/-- `norm` from `src/bot.py` line 86-87:
`re.sub(r"\s+", " ", (name or "")).strip().casefold()`.
The result is kept as a `List Char` key. -/
def normList (l : List Char) : List Char := lowerList (stripList (collapseWS l))

/-- `norm` applied to a Lean `String`. -/
def norm (s : String) : List Char := normList s.data

/-! ### Roster ranker (lines 202-205 of `sync_torn_data`) -/

/-- One record of `company_employees`: the fields the core consumes.
`days` is `none` when `days_in_company` is absent (the code then uses the
default `0`). -/
structure RawEntry where
  name : String
  days : Option Nat
deriving DecidableEq, Repr

/-- `int(kv[1].get("days_in_company", 0))`. -/
def entryDays (e : RawEntry) : Nat := e.days.getD 0

/-- The sort order of line 204: ascending in the Python key
`(-days_in_company, name.lower())`, i.e. descending days, ties by ascending
lowercased raw name. -/
def entryLe (a b : RawEntry) : Prop :=
  entryDays b < entryDays a ∨
    (entryDays a = entryDays b ∧
      charListLe (lowerList a.name.data) (lowerList b.name.data) = true)

instance : DecidableRel entryLe := fun a b => by
  unfold entryLe
  exact inferInstance

/-- The sorted record list (Python `sorted(...)` is a stable sort; so is
`List.insertionSort`, and a stable sort by a total preorder is unique, so
the two agree on every input). -/
def rankE (l : List RawEntry) : List RawEntry := l.insertionSort entryLe

/-- `api_emps` of lines 202-205: names of the records in rank order. -/
def rank (l : List RawEntry) : List String := (rankE l).map RawEntry.name

/-! ### Trained map and reconciliation (lines 207-218) -/

/-- The persisted `trained` dict, insertion ordered. -/
abbrev TrainedMap := List (String × Bool)

/-- `trained.get(e, "N") == "Y"`: look a name up, defaulting to `false`. -/
def flagD (m : TrainedMap) (k : String) : Bool :=
  ((m.find? (fun p => p.1 == k)).map Prod.snd).getD false

/-- Keys of the map, in insertion order. -/
def keysOf (m : TrainedMap) : List String := m.map Prod.fst

/-- Lines 210-212: `for k in list(trained.keys()): if k not in api_emps:
trained.pop(k, None)` — keep exactly the entries whose key occurs in the
new roster (raw string membership). -/
def dropLeavers (m : TrainedMap) (roster : List String) : TrainedMap :=
  m.filter (fun p => roster.contains p.1)

/-- Lines 215-216: `for e in api_emps: trained.setdefault(e, "N")` — a dict
`setdefault` inserts at the end when the key is absent and does nothing
when it is present. -/
def initHires (m : TrainedMap) (roster : List String) : TrainedMap :=
  roster.foldl (fun acc e => if acc.any (fun p => p.1 == e) then acc else acc ++ [(e, false)]) m

/-- The full map reconciliation of `sync_torn_data`: drop leavers, then
initialise new hires. -/
def reconcileTrained (m : TrainedMap) (roster : List String) : TrainedMap :=
  initHires (dropLeavers m roster) roster

/-! ### Rotation state, completion detector, advancer (lines 89-100, 218-224) -/

/-- The persisted rotation fields that the reconciliation/advance logic
reads and writes (`employees`, `trained`, `rotation_cycle` of `data.json`). -/
structure RotationState where
  employees : List String
  trained : TrainedMap
  rotation_cycle : Nat
deriving DecidableEq, Repr

/-- `all_trained` (lines 89-92): roster non-empty and every roster member's
flag (default `false`) is `true`. -/
def allTrained (s : RotationState) : Bool :=
  !s.employees.isEmpty && s.employees.all (fun e => flagD s.trained e)

/-- Python dict assignment `trained[e] = v`: overwrite in place when the key
exists, append otherwise. -/
def setKey (m : TrainedMap) (k : String) (v : Bool) : TrainedMap :=
  if m.any (fun p => p.1 == k) then
    m.map (fun p => if p.1 == k then (k, v) else p)
  else m ++ [(k, v)]

/-- `reset_rotation` (lines 94-100): set every roster member's flag to
`false` and increment the cycle counter. -/
def resetRotation (s : RotationState) : RotationState :=
  { s with
    trained := s.employees.foldl (fun acc e => setKey acc e false) s.trained
    rotation_cycle := s.rotation_cycle + 1 }

/-- Lines 223-224 of `sync_torn_data`: `if all_trained(base): reset_rotation(base)`. -/
def maybeAdvance (s : RotationState) : RotationState :=
  if allTrained s then resetRotation s else s

/-! ### Company snapshot and the sync pipeline -/

/-- A JSON-ish Python value, for fields the code coerces with `int(...)`. -/
inductive PyVal where
  | vNone : PyVal
  | vInt : Int → PyVal
  | vStr : String → PyVal
deriving DecidableEq, Repr

/-- Python truthiness of a `PyVal`. -/
def pyTruthy : PyVal → Bool
  | .vNone => false
  | .vInt n => n != 0
  | .vStr s => s != ""

/-- Python `a or b`. -/
def pyOr (a b : PyVal) : PyVal := if pyTruthy a then a else b

/-- Digits-only parse: `some` of the value when every character is an ASCII
digit and there is at least one. -/
def digitsToNat : List Char → Option Nat
  | [] => none
  | l => l.foldl (fun acc c => do
      let a ← acc
      if c.isDigit then some (a * 10 + (c.toNat - 48)) else none) (some 0)

/-- Python `int(s)` on a string (ASCII decimal fragment: optional
surrounding whitespace, optional sign, digits); `none` exactly when Python
raises `ValueError`. -/
def pyIntOfStr (s : String) : Option Int :=
  match stripList s.data with
  | '-' :: rest => (digitsToNat rest).map (fun n => -(n : Int))
  | '+' :: rest => (digitsToNat rest).map (fun n => (n : Int))
  | l => (digitsToNat l).map (fun n => (n : Int))

/-- Python `int(v)` on a `PyVal`; `none` when Python raises
(`TypeError` for `None`, `ValueError` for a non-numeric string). -/
def pyToInt : PyVal → Option Int
  | .vNone => none
  | .vInt n => some n
  | .vStr s => pyIntOfStr s

/-- The validated company snapshot consumed by `sync_torn_data` /
`scheduled_sync`: the `company_employees` records in insertion order, and
`company_detailed`'s `trains_available` field (`none` when absent). -/
structure CompanySnapshot where
  employees : List RawEntry
  trains_available : Option PyVal
deriving DecidableEq, Repr

/-- Line 248 of `scheduled_sync`:
`int(data.get(...).get("trains_available", 0) or 0)` — the snapshot just
persisted by the sync is read back, the field defaults to `0` when absent,
falsy values are replaced by `0`, then `int` coerces. -/
def trainsValue (snap : CompanySnapshot) : Option Int :=
  pyToInt (pyOr (snap.trains_available.getD (.vInt 0)) (.vInt 0))

/-- Lines 248-250 of `scheduled_sync`: the notification verdict and the
value it reports; `none` when the `int` coercion raises. -/
def shouldNotify (snap : CompanySnapshot) : Option (Bool × Int) :=
  (trainsValue snap).map (fun t => (decide (10 ≤ t), t))

/-- Lines 202-220 of `sync_torn_data`: rank the snapshot, reconcile the
trained map against the ranked roster, replace the roster wholesale.
(`company_snapshot` / `last_sync` are carried along by the code but read by
no claim-relevant logic except `scheduled_sync`'s re-read of the snapshot,
which `shouldNotify` takes directly.) -/
def reconcileState (base : RotationState) (snap : CompanySnapshot) : RotationState :=
  let api := rank snap.employees
  { employees := api
    trained := reconcileTrained base.trained api
    rotation_cycle := base.rotation_cycle }

/-- The whole state transition of one successful `sync_torn_data` call:
reconcile, then advance the rotation when everyone is trained
(lines 202-224). -/
def syncState (base : RotationState) (snap : CompanySnapshot) : RotationState :=
  maybeAdvance (reconcileState base snap)

/-! ### Identity resolver (`verify_employee`, lines 129-150) -/

/-- `re.split(r"\[|\(", nickname)[0]`: the text before the first `[` or `(`
marker (the whole text when no marker occurs). -/
def takeBeforeMarker (l : List Char) : List Char :=
  l.takeWhile (fun c => c != '[' && c != '(')

/-- Line 132: `base_name = re.split(r"\[|\(", nickname)[0].strip()`. -/
def extractBase (nick : String) : List Char :=
  stripList (takeBeforeMarker nick.data)

/-- Outcome of the name-resolution portion of `verify_employee`
(lines 129-150): the empty-candidate diagnostic of line 133-137, the
no-match diagnostic of line 146-150, or the first matching employee. -/
inductive ResolveResult where
  | emptyCandidate : ResolveResult
  | noMatch : ResolveResult
  | matched : String → ResolveResult
deriving DecidableEq, Repr

/-- Lines 129-150 of `verify_employee`: extract the base name; if it is
empty report the parse failure; otherwise linearly scan the employee list
for the first `norm`-equal entry. -/
def resolveMember (nick : String) (employees : List String) : ResolveResult :=
  let base := extractBase nick
  if base.isEmpty then .emptyCandidate
  else
    match employees.find? (fun e => norm e == normList base) with
    | some e => .matched e
    | none => .noMatch

/-! ### Order facts about the ranking comparison -/

theorem charListLe_total : ∀ a b : List Char, charListLe a b = true ∨ charListLe b a = true
  | [], _ => Or.inl rfl
  | _ :: _, [] => Or.inr rfl
  | a :: as, b :: bs => by
    simp only [charListLe]
    rcases Nat.lt_trichotomy a.toNat b.toNat with h | h | h
    · left
      simp [h]
    · rcases charListLe_total as bs with ih | ih
      · left
        simp [h, ih]
      · right
        simp [h, ih]
    · right
      simp [h]

theorem charListLe_trans : ∀ a b c : List Char, charListLe a b = true → charListLe b c = true →
    charListLe a c = true
  | [], _, _, _, _ => rfl
  | _ :: _, [], _, hab, _ => by simp [charListLe] at hab
  | _ :: _, _ :: _, [], _, hbc => by simp [charListLe] at hbc
  | a :: as, b :: bs, c :: cs, hab, hbc => by
    simp only [charListLe] at hab hbc ⊢
    by_cases h1 : a.toNat < b.toNat
    · by_cases h2 : b.toNat < c.toNat
      · simp [Nat.lt_trans h1 h2]
      · by_cases h3 : c.toNat < b.toNat
        · simp [h2, h3] at hbc
        · have hac : a.toNat < c.toNat := by omega
          simp [hac]
    · by_cases h4 : b.toNat < a.toNat
      · simp [h1, h4] at hab
      · by_cases h2 : b.toNat < c.toNat
        · have hac : a.toNat < c.toNat := by omega
          simp [hac]
        · by_cases h3 : c.toNat < b.toNat
          · simp [h2, h3] at hbc
          · have h5 : ¬ a.toNat < c.toNat := by omega
            have h6 : ¬ c.toNat < a.toNat := by omega
            simp only [h1, h4, if_neg, if_false] at hab
            simp only [h2, h3, if_neg, if_false] at hbc
            simp [h5, h6, charListLe_trans as bs cs hab hbc]

theorem entryLe_total : ∀ a b : RawEntry, entryLe a b ∨ entryLe b a := by
  intro a b
  rcases Nat.lt_trichotomy (entryDays a) (entryDays b) with h | h | h
  · exact Or.inr (Or.inl h)
  · rcases charListLe_total (lowerList a.name.data) (lowerList b.name.data) with hc | hc
    · exact Or.inl (Or.inr ⟨h, hc⟩)
    · exact Or.inr (Or.inr ⟨h.symm, hc⟩)
  · exact Or.inl (Or.inl h)

theorem entryLe_trans : ∀ a b c : RawEntry, entryLe a b → entryLe b c → entryLe a c := by
  intro a b c hab hbc
  rcases hab with h1 | ⟨h1, n1⟩ <;> rcases hbc with h2 | ⟨h2, n2⟩
  · exact Or.inl (by omega)
  · exact Or.inl (by omega)
  · exact Or.inl (by omega)
  · exact Or.inr ⟨by omega, charListLe_trans _ _ _ n1 n2⟩

instance : IsTotal RawEntry entryLe := ⟨entryLe_total⟩

instance : IsTrans RawEntry entryLe := ⟨entryLe_trans⟩

theorem sorted_rankE (l : List RawEntry) : List.Sorted entryLe (rankE l) :=
  List.sorted_insertionSort entryLe l

theorem rankE_perm (l : List RawEntry) : (rankE l).Perm l :=
  List.perm_insertionSort entryLe l

theorem rank_perm (l : List RawEntry) : (rank l).Perm (l.map RawEntry.name) :=
  (rankE_perm l).map RawEntry.name

/-! ### Claims C5, C6, C10: the roster ranker -/

/-- C5 counterexample: two raw records carrying the same identifier `"A"`
(under distinct ids, tenures 5 and 3) are both emitted: the ranked roster
is `["A", "A"]`, so the claim that the canonical roster contains each
identifier exactly once, later duplicates being discarded, is false. -/
theorem rank_duplicate_cex :
    rank [⟨"A", some 5⟩, ⟨"A", some 3⟩] = ["A", "A"] := by decide

/-- C5 (amended): the ranked roster is a permutation of the names of the raw
records — one output entry per raw record, never a crash, and no duplicate
is ever *introduced*: when the raw identifiers are pairwise distinct, each
occurs exactly once. Duplicate raw identifiers, however, are not collapsed. -/
theorem rank_names_amended (l : List RawEntry) :
    (rank l).Perm (l.map RawEntry.name) ∧
      ((l.map RawEntry.name).Nodup → (rank l).Nodup) := by
  refine ⟨rank_perm l, fun h => ?_⟩
  exact ((rank_perm l).nodup_iff).mpr h

/-- C5 witness: on a duplicate-free input the ranked roster is
duplicate-free. -/
theorem rank_names_amended_witness :
    (rank [⟨"A", some 5⟩, ⟨"B", some 3⟩]).Nodup :=
  (rank_names_amended [⟨"A", some 5⟩, ⟨"B", some 3⟩]).2 (by decide)

/-- C6 counterexample: a tenure tie between `"a  z"` and `"a b"`.  The
normalized forms satisfy `norm "a b" < norm "a  z"` (the Name Normalizer
collapses the double space, so `"a b" < "a z"`), hence the claimed
ascending-normalized tie-break would place `"a b"` first; the code compares
the *raw* lowercased strings (where `' ' < 'b'` makes `"a  z"` smaller) and
outputs `["a  z", "a b"]`. -/
theorem rank_tiebreak_cex :
    entryDays ⟨"a  z", some 5⟩ = entryDays ⟨"a b", some 5⟩ ∧
      charListLe (norm "a b") (norm "a  z") = true ∧
      norm "a b" ≠ norm "a  z" ∧
      rank [⟨"a  z", some 5⟩, ⟨"a b", some 5⟩] = ["a  z", "a b"] :=
  ⟨by decide, by decide, by decide, by decide⟩

/-- C6 (amended): the ranker orders records descending by tenure and breaks
tenure ties by the ascending *lowercased raw* identifier (per-character
lowercasing with no whitespace collapsing or trimming), deterministically;
the spec's example `[("X",5), ("y",5), ("Z",20)]` ranks to `[Z, X, y]`. -/
theorem rank_order_amended (l : List RawEntry) :
    List.Pairwise
        (fun a b => entryDays b < entryDays a ∨
          (entryDays a = entryDays b ∧
            charListLe (lowerList a.name.data) (lowerList b.name.data) = true))
        (rankE l) ∧
      rank l = (rankE l).map RawEntry.name ∧
      rank [⟨"X", some 5⟩, ⟨"y", some 5⟩, ⟨"Z", some 20⟩] = ["Z", "X", "y"] :=
  ⟨sorted_rankE l, rfl, by decide⟩

/-- C10: a record with no `days_in_company` field is ranked with tenure 0:
it is placed after every positive-tenure record, ties with other tenure-0
records are broken by ascending lowercased name, and the ranking is total
(one output name per input record, no failure). -/
theorem rank_absent_days (nm : String) (l : List RawEntry) :
    entryDays ⟨nm, none⟩ = 0 ∧
      (rank l).length = l.length ∧
      (∀ pre post, rankE l = pre ++ ⟨nm, none⟩ :: post →
        ∀ a ∈ pre, 0 < entryDays a ∨
          (entryDays a = 0 ∧
            charListLe (lowerList a.name.data) (lowerList nm.data) = true)) ∧
      rank [⟨"b", none⟩, ⟨"a", some 1⟩, ⟨"c", none⟩] = ["a", "b", "c"] := by
  refine ⟨rfl, ?_, ?_, by decide⟩
  · simpa using (rank_perm l).length_eq
  · intro pre post hsplit a ha
    have hs : List.Sorted entryLe (pre ++ RawEntry.mk nm none :: post) :=
      hsplit ▸ sorted_rankE l
    have h := (List.pairwise_append.mp hs).2.2 a ha (RawEntry.mk nm none)
      (List.mem_cons_self _ _)
    rcases h with h | ⟨h, hn⟩
    · exact Or.inl h
    · exact Or.inr ⟨h, hn⟩

/-- C10 witness: in the ranked output `[⟨a,1⟩, ⟨b,absent⟩]`, the record
ranked before the absent-tenure record has positive tenure (or would tie at
0 with a smaller name). -/
theorem rank_absent_days_witness :
    0 < entryDays ⟨"a", some 1⟩ ∨
      (entryDays ⟨"a", some 1⟩ = 0 ∧
        charListLe (lowerList "a".data) (lowerList "b".data) = true) :=
  (rank_absent_days "b" [⟨"a", some 1⟩, ⟨"b", none⟩]).2.2.1
    [⟨"a", some 1⟩] [] (by decide) ⟨"a", some 1⟩ (by simp)

/-! ### Facts about the trained-map operations -/

theorem reconcileState_employees (base : RotationState) (snap : CompanySnapshot) :
    (reconcileState base snap).employees = rank snap.employees := rfl

theorem reconcileState_trained (base : RotationState) (snap : CompanySnapshot) :
    (reconcileState base snap).trained = reconcileTrained base.trained (rank snap.employees) := rfl

theorem reconcileState_cycle (base : RotationState) (snap : CompanySnapshot) :
    (reconcileState base snap).rotation_cycle = base.rotation_cycle := rfl

theorem resetRotation_employees (s : RotationState) :
    (resetRotation s).employees = s.employees := rfl

theorem resetRotation_trained (s : RotationState) :
    (resetRotation s).trained =
      s.employees.foldl (fun acc e => setKey acc e false) s.trained := rfl

theorem resetRotation_cycle (s : RotationState) :
    (resetRotation s).rotation_cycle = s.rotation_cycle + 1 := rfl

theorem mem_keys_iff_exists (m : TrainedMap) (k : String) :
    k ∈ keysOf m ↔ ∃ p ∈ m, p.1 = k := by
  simp [keysOf, List.mem_map]

theorem mem_keys_dropLeavers (m : TrainedMap) (roster : List String) (k : String) :
    k ∈ keysOf (dropLeavers m roster) ↔ k ∈ keysOf m ∧ k ∈ roster := by
  simp only [keysOf, dropLeavers, List.mem_map, List.mem_filter]
  constructor
  · rintro ⟨p, ⟨hp, hc⟩, rfl⟩
    exact ⟨⟨p, hp, rfl⟩, by simpa using hc⟩
  · rintro ⟨⟨p, hp, rfl⟩, hr⟩
    exact ⟨p, ⟨hp, by simpa using hr⟩, rfl⟩

theorem initHires_cons (m : TrainedMap) (e : String) (rest : List String) :
    initHires m (e :: rest) =
      initHires (if m.any (fun p => p.1 == e) then m else m ++ [(e, false)]) rest := rfl

theorem mem_keys_initHires : ∀ (roster : List String) (m : TrainedMap) (k : String),
    k ∈ keysOf (initHires m roster) ↔ k ∈ keysOf m ∨ k ∈ roster
  | [], m, k => by simp [initHires]
  | e :: rest, m, k => by
    rw [initHires_cons]
    by_cases h : m.any (fun p => p.1 == e)
    · rw [if_pos h, mem_keys_initHires rest m k]
      have he : e ∈ keysOf m := by
        rcases List.any_eq_true.mp h with ⟨p, hp, hpe⟩
        exact (mem_keys_iff_exists m e).mpr ⟨p, hp, by simpa using hpe⟩
      constructor
      · rintro (h' | h')
        · exact Or.inl h'
        · exact Or.inr (List.mem_cons_of_mem _ h')
      · rintro (h' | h')
        · exact Or.inl h'
        · rcases List.mem_cons.mp h' with rfl | h''
          · exact Or.inl he
          · exact Or.inr h''
    · rw [if_neg h, mem_keys_initHires rest (m ++ [(e, false)]) k]
      simp only [keysOf, List.map_append, List.mem_append, List.map_cons, List.map_nil,
        List.mem_singleton, List.mem_cons]
      tauto

theorem mem_keys_reconcileTrained (m : TrainedMap) (roster : List String) (k : String) :
    k ∈ keysOf (reconcileTrained m roster) ↔ k ∈ roster := by
  rw [reconcileTrained, mem_keys_initHires, mem_keys_dropLeavers]
  tauto

theorem keysOf_update (m : TrainedMap) (k0 : String) (v : Bool) :
    keysOf (m.map fun p => if p.1 == k0 then (k0, v) else p) = keysOf m := by
  induction m with
  | nil => rfl
  | cons p rest ih =>
    simp only [keysOf, List.map_cons] at ih ⊢
    rw [ih]
    by_cases hp : p.1 == k0
    · simp only [hp, if_pos]
      rw [eq_of_beq hp]
    · simp [hp]

theorem mem_keys_setKey (m : TrainedMap) (k0 k : String) (v : Bool) :
    k ∈ keysOf (setKey m k0 v) ↔ k ∈ keysOf m ∨ k = k0 := by
  rw [setKey]
  by_cases h : m.any (fun p => p.1 == k0)
  · rw [if_pos h]
    have he : k0 ∈ keysOf m := by
      rcases List.any_eq_true.mp h with ⟨p, hp, hpe⟩
      exact (mem_keys_iff_exists m k0).mpr ⟨p, hp, by simpa using hpe⟩
    rw [keysOf_update]
    constructor
    · exact Or.inl
    · rintro (h' | rfl)
      · exact h'
      · exact he
  · rw [if_neg h]
    simp only [keysOf, List.map_append, List.mem_append, List.map_cons, List.map_nil,
      List.mem_singleton]

theorem mem_keys_foldl_setKey : ∀ (es : List String) (m : TrainedMap) (k : String),
    k ∈ keysOf (es.foldl (fun acc e => setKey acc e false) m) ↔ k ∈ keysOf m ∨ k ∈ es
  | [], m, k => by simp
  | e :: rest, m, k => by
    rw [List.foldl_cons, mem_keys_foldl_setKey rest _ k, mem_keys_setKey]
    simp only [List.mem_cons]
    tauto

/-! ### Claim C1: completion-map keys equal the roster after sync -/

/-- C1: after every sync reconciliation (including a possible rotation
advance), the key set of the persisted `trained` map equals the element set
of the persisted `employees` roster: no orphaned completion key and no
roster member without a completion entry. -/
theorem sync_completion_keys (base : RotationState) (snap : CompanySnapshot) (k : String) :
    k ∈ keysOf (syncState base snap).trained ↔ k ∈ (syncState base snap).employees := by
  have hrec : k ∈ keysOf (reconcileState base snap).trained ↔
      k ∈ (reconcileState base snap).employees := by
    rw [reconcileState_trained, reconcileState_employees]
    exact mem_keys_reconcileTrained _ _ _
  rw [syncState, maybeAdvance]
  by_cases h : allTrained (reconcileState base snap)
  · rw [if_pos h, resetRotation_trained, resetRotation_employees, mem_keys_foldl_setKey]
    constructor
    · rintro (h' | h')
      · exact hrec.mp h'
      · exact h'
    · exact Or.inr
  · rw [if_neg h]
    exact hrec

/-- C1 witness: after syncing the empty initial state against a snapshot
containing employee `a`, the key `a` is present in the completion map. -/
theorem sync_completion_keys_witness :
    "a" ∈ keysOf (syncState ⟨[], [], 0⟩ ⟨[⟨"a", some 1⟩], none⟩).trained :=
  (sync_completion_keys ⟨[], [], 0⟩ ⟨[⟨"a", some 1⟩], none⟩ "a").mpr (by decide)

/-! ### Claim C2: retained members keep their completion flag -/

theorem find?_dropLeavers (m : TrainedMap) (roster : List String) (k : String)
    (hk : k ∈ roster) :
    (dropLeavers m roster).find? (fun p => p.1 == k) = m.find? (fun p => p.1 == k) := by
  induction m with
  | nil => rfl
  | cons p rest ih =>
    rw [dropLeavers, List.filter_cons]
    by_cases hpk : (p.1 == k) = true
    · have hc : roster.contains p.1 = true := by
        rw [eq_of_beq hpk]
        simpa using hk
      rw [if_pos hc]
      simp [List.find?_cons, hpk]
    · have hpk' : (p.1 == k) = false := by simpa using hpk
      by_cases hc : roster.contains p.1 = true
      · rw [if_pos hc]
        rw [List.find?_cons, List.find?_cons, hpk']
        exact ih
      · rw [if_neg hc]
        rw [List.find?_cons, hpk']
        exact ih

theorem find?_isSome_of_mem_keys (m : TrainedMap) (k : String) (h : k ∈ keysOf m) :
    (m.find? (fun p => p.1 == k)).isSome := by
  rw [List.find?_isSome]
  rcases (mem_keys_iff_exists m k).mp h with ⟨p, hp, hpk⟩
  exact ⟨p, hp, by simpa using hpk⟩

theorem find?_initHires : ∀ (roster : List String) (m : TrainedMap) (k : String),
    k ∈ keysOf m →
    (initHires m roster).find? (fun p => p.1 == k) = m.find? (fun p => p.1 == k)
  | [], _, _, _ => rfl
  | e :: rest, m, k, hk => by
    rw [initHires_cons]
    by_cases h : m.any (fun p => p.1 == e)
    · rw [if_pos h]
      exact find?_initHires rest m k hk
    · rw [if_neg h]
      have hk' : k ∈ keysOf (m ++ [(e, false)]) := by
        simp only [keysOf, List.map_append, List.mem_append]
        exact Or.inl hk
      rw [find?_initHires rest (m ++ [(e, false)]) k hk', List.find?_append]
      rcases hfind : m.find? (fun p => p.1 == k) with _ | p
      · have := find?_isSome_of_mem_keys m k hk
        rw [hfind] at this
        simp at this
      · rw [hfind]
        rfl

/-- C2 counterexample: the previous map holds `ALICE ↦ true` and the new
roster contains `alice`.  Under the claim's matching rule the member is
retained (`norm "ALICE" = norm "alice"`), so their flag should stay `true`;
the code matches by raw string equality, drops `ALICE`, and re-inserts
`alice` as untrained — the retained member's flag is flipped to `false`. -/
theorem reconcile_normalized_equality_cex :
    norm "ALICE" = norm "alice" ∧
      flagD [("ALICE", true)] "ALICE" = true ∧
      reconcileTrained [("ALICE", true)] ["alice"] = [("alice", false)] ∧
      flagD (reconcileTrained [("ALICE", true)] ["alice"]) "alice" = false :=
  ⟨by decide, by decide, by decide, by decide⟩

/-- C2 (amended): reconciliation matches members by *raw* string equality —
an identifier present (verbatim) both as a key of the previous completion
map and in the new roster keeps its exact prior entry, and `reconcile`
never flips such a retained member's flag.  (Identifiers equal only up to
normalization are treated as a departure plus a new hire.) -/
theorem reconcile_retained_flags (m : TrainedMap) (roster : List String) (k : String)
    (hm : k ∈ keysOf m) (hr : k ∈ roster) :
    (reconcileTrained m roster).find? (fun p => p.1 == k) =
      m.find? (fun p => p.1 == k) := by
  rw [reconcileTrained]
  have hm' : k ∈ keysOf (dropLeavers m roster) := by
    rw [mem_keys_dropLeavers]
    exact ⟨hm, hr⟩
  rw [find?_initHires roster _ k hm', find?_dropLeavers m roster k hr]

/-- C2 witness: employee `a`, present before (flag `true`) and after, keeps
its exact entry across reconciliation. -/
theorem reconcile_retained_flags_witness :
    (reconcileTrained [("a", true)] ["a", "b"]).find? (fun p => p.1 == "a") =
      [(("a" : String), true)].find? (fun p => p.1 == "a") :=
  reconcile_retained_flags [("a", true)] ["a", "b"] "a" (by decide) (by decide)

/-! ### Claims C3, C4: completion detection and the rotation advance -/

theorem all_false_foldl_setKey : ∀ (es : List String) (m : TrainedMap),
    (∀ p ∈ m, p.2 = false ∨ p.1 ∈ es) →
    ∀ p ∈ es.foldl (fun acc e => setKey acc e false) m, p.2 = false
  | [], m, h, p, hp => by
    rcases h p hp with h' | h'
    · exact h'
    · simp at h'
  | e :: rest, m, h, p, hp => by
    rw [List.foldl_cons] at hp
    refine all_false_foldl_setKey rest (setKey m e false) ?_ p hp
    intro q hq
    rw [setKey] at hq
    by_cases hany : m.any (fun r => r.1 == e)
    · rw [if_pos hany] at hq
      rcases List.mem_map.mp hq with ⟨r, hr, hupd⟩
      by_cases hre : (r.1 == e) = true
      · rw [if_pos hre] at hupd
        exact Or.inl (by rw [← hupd])
      · rw [if_neg hre] at hupd
        subst hupd
        rcases h r hr with h' | h'
        · exact Or.inl h'
        · rcases List.mem_cons.mp h' with h'' | h''
          · exact absurd (by rw [h'']; exact beq_self_eq_true e) hre
          · exact Or.inr h''
    · rw [if_neg hany] at hq
      rcases List.mem_append.mp hq with hq' | hq'
      · rcases h q hq' with h' | h'
        · exact Or.inl h'
        · rcases List.mem_cons.mp h' with h'' | h''
          · exact absurd (List.any_eq_true.mpr ⟨q, hq', by simp [h'']⟩) hany
          · exact Or.inr h''
      · have : q = (e, false) := by simpa using hq'
        exact Or.inl (by rw [this])

theorem flagD_map_update_self : ∀ (m : TrainedMap) (k : String) (v : Bool),
    m.any (fun p => p.1 == k) = true →
    flagD (m.map fun p => if p.1 == k then (k, v) else p) k = v
  | [], _, _, h => by simp at h
  | p :: rest, k, v, h => by
    rw [List.map_cons]
    by_cases hpk : (p.1 == k) = true
    · rw [if_pos hpk, flagD, List.find?_cons]
      simp
    · have hpk' : (p.1 == k) = false := by simpa using hpk
      rw [if_neg hpk, flagD, List.find?_cons, hpk']
      have hrest : rest.any (fun p => p.1 == k) = true := by
        rw [List.any_cons, hpk'] at h
        simpa using h
      exact flagD_map_update_self rest k v hrest

theorem flagD_map_update_other : ∀ (m : TrainedMap) (k0 k : String) (v : Bool), k ≠ k0 →
    flagD (m.map fun p => if p.1 == k0 then (k0, v) else p) k = flagD m k
  | [], _, _, _, _ => rfl
  | p :: rest, k0, k, v, hne => by
    rw [List.map_cons]
    by_cases hpk0 : (p.1 == k0) = true
    · rw [if_pos hpk0]
      have h1 : (((k0, v) : String × Bool).1 == k) = false := by
        simp only []
        exact beq_eq_false_iff_ne.mpr (fun h => hne h.symm)
      have h2 : (p.1 == k) = false := by
        rw [eq_of_beq hpk0]
        exact beq_eq_false_iff_ne.mpr (fun h => hne h.symm)
      rw [flagD, List.find?_cons, h1, flagD, List.find?_cons, h2]
      exact flagD_map_update_other rest k0 k v hne
    · rw [if_neg hpk0]
      by_cases hpk : (p.1 == k) = true
      · rw [flagD, List.find?_cons, hpk, flagD, List.find?_cons, hpk]
      · have hpk' : (p.1 == k) = false := by simpa using hpk
        rw [flagD, List.find?_cons, hpk', flagD, List.find?_cons, hpk']
        exact flagD_map_update_other rest k0 k v hne

theorem flagD_setKey_self (m : TrainedMap) (k : String) (v : Bool) :
    flagD (setKey m k v) k = v := by
  rw [setKey]
  by_cases h : m.any (fun p => p.1 == k)
  · rw [if_pos h]
    exact flagD_map_update_self m k v h
  · rw [if_neg h]
    have hnone : m.find? (fun p => p.1 == k) = none := by
      rw [List.find?_eq_none]
      intro p hp hpk
      exact h (List.any_eq_true.mpr ⟨p, hp, hpk⟩)
    rw [flagD, List.find?_append, hnone]
    simp

theorem flagD_setKey_other (m : TrainedMap) (k0 k : String) (v : Bool) (hne : k ≠ k0) :
    flagD (setKey m k0 v) k = flagD m k := by
  rw [setKey]
  by_cases h : m.any (fun p => p.1 == k0)
  · rw [if_pos h]
    exact flagD_map_update_other m k0 k v hne
  · rw [if_neg h]
    rw [flagD, List.find?_append]
    have htail : ([((k0 : String), v)]).find? (fun p => p.1 == k) = none := by
      rw [List.find?_eq_none]
      intro p hp hpk
      have : p = (k0, v) := by simpa using hp
      rw [this] at hpk
      exact absurd (eq_of_beq hpk) (fun h' => hne h'.symm)
    rw [htail, Option.or_none]
    rfl

theorem flagD_foldl_setKey_notmem : ∀ (es : List String) (m : TrainedMap) (k : String),
    k ∉ es → flagD (es.foldl (fun acc e => setKey acc e false) m) k = flagD m k
  | [], _, _, _ => rfl
  | e :: rest, m, k, h => by
    rw [List.foldl_cons]
    have hek : k ≠ e := fun h' => h (h' ▸ List.mem_cons_self e rest)
    rw [flagD_foldl_setKey_notmem rest _ k (fun h' => h (List.mem_cons_of_mem e h')),
      flagD_setKey_other m e k false hek]

theorem flagD_foldl_setKey_mem : ∀ (es : List String) (m : TrainedMap) (k : String),
    k ∈ es → flagD (es.foldl (fun acc e => setKey acc e false) m) k = false
  | [], _, _, h => by simp at h
  | e :: rest, m, k, h => by
    rw [List.foldl_cons]
    by_cases hk : k ∈ rest
    · exact flagD_foldl_setKey_mem rest _ k hk
    · have hke : k = e := by
        rcases List.mem_cons.mp h with h' | h'
        · exact h'
        · exact absurd h' hk
      rw [flagD_foldl_setKey_notmem rest _ k hk, hke, flagD_setKey_self]

theorem allTrained_resetRotation_false (s : RotationState) (h : s.employees ≠ []) :
    allTrained (resetRotation s) = false := by
  rw [allTrained, resetRotation_employees, resetRotation_trained]
  rcases hemp : s.employees with _ | ⟨e, rest⟩
  · exact absurd hemp h
  · rw [List.all_cons,
      flagD_foldl_setKey_mem (e :: rest) s.trained e (List.mem_cons_self e rest)]
    simp

/-- C3: when the reconciled state is fully trained, the sync performs
exactly one advance: the persisted cycle counter is the previous counter
plus one and every completion flag is reset to `false`; and re-running the
advance check on the output of an advance is a no-op whenever the roster is
non-empty (all flags are `false`, so the state is not "complete"). -/
theorem advance_single_shot (base : RotationState) (snap : CompanySnapshot)
    (s : RotationState) :
    (allTrained (reconcileState base snap) = true →
      syncState base snap = resetRotation (reconcileState base snap) ∧
      (syncState base snap).rotation_cycle = base.rotation_cycle + 1 ∧
      (∀ p ∈ (syncState base snap).trained, p.2 = false) ∧
      maybeAdvance (syncState base snap) = syncState base snap) ∧
    (s.employees ≠ [] →
      allTrained (resetRotation s) = false ∧
      maybeAdvance (resetRotation s) = resetRotation s) := by
  have noop : ∀ t : RotationState, t.employees ≠ [] →
      allTrained (resetRotation t) = false ∧
      maybeAdvance (resetRotation t) = resetRotation t := by
    intro t ht
    have hf := allTrained_resetRotation_false t ht
    refine ⟨hf, ?_⟩
    rw [maybeAdvance, hf]
    simp
  refine ⟨?_, noop s⟩
  intro h
  have hsync : syncState base snap = resetRotation (reconcileState base snap) := by
    rw [syncState, maybeAdvance, if_pos h]
  have hne : (reconcileState base snap).employees ≠ [] := by
    intro hemp
    rw [allTrained, hemp] at h
    simp at h
  refine ⟨hsync, ?_, ?_, ?_⟩
  · rw [hsync, resetRotation_cycle, reconcileState_cycle]
  · rw [hsync, resetRotation_trained]
    apply all_false_foldl_setKey
    intro p hp
    refine Or.inr ?_
    have hkey : p.1 ∈ keysOf (reconcileState base snap).trained :=
      List.mem_map_of_mem Prod.fst hp
    rw [reconcileState_trained] at hkey
    rw [reconcileState_employees]
    exact (mem_keys_reconcileTrained _ _ _).mp hkey
  · rw [hsync]
    exact (noop _ hne).2

/-- C3 witness: a one-member roster already fully trained after
reconciliation advances the cycle from 0 to 1. -/
theorem advance_single_shot_witness :
    (syncState ⟨["a"], [("a", true)], 0⟩ ⟨[⟨"a", some 1⟩], none⟩).rotation_cycle = 0 + 1 :=
  ((advance_single_shot ⟨["a"], [("a", true)], 0⟩ ⟨[⟨"a", some 1⟩], none⟩
    ⟨["a"], [], 0⟩).1 (by decide)).2.1

/-- C4: the completion detector reports "complete" iff the roster is
non-empty and every roster member's flag in the completion map (absent
entries read as `false`) is `true`; an empty roster is never complete and
never triggers an advance, regardless of the map's contents. -/
theorem completion_detector_iff (s : RotationState) :
    (allTrained s = true ↔
      s.employees ≠ [] ∧ ∀ e ∈ s.employees, flagD s.trained e = true) ∧
    (s.employees = [] → allTrained s = false ∧ maybeAdvance s = s) := by
  constructor
  · rw [allTrained, Bool.and_eq_true, List.all_eq_true]
    constructor
    · rintro ⟨h1, h2⟩
      refine ⟨?_, fun e he => h2 e he⟩
      intro hemp
      rw [hemp] at h1
      simp at h1
    · rintro ⟨h1, h2⟩
      refine ⟨?_, fun e he => h2 e he⟩
      rcases hemp : s.employees with _ | ⟨e, rest⟩
      · exact absurd hemp h1
      · rfl
  · intro h
    have hfalse : allTrained s = false := by
      rw [allTrained, h]
      rfl
    refine ⟨hfalse, ?_⟩
    rw [maybeAdvance, hfalse]
    simp

/-- C4 witness: a state with an empty roster but a fully-`true` map is not
advanced by the completion check. -/
theorem completion_detector_iff_witness :
    maybeAdvance ⟨[], [("x", true)], 5⟩ = ⟨[], [("x", true)], 5⟩ :=
  ((completion_detector_iff ⟨[], [("x", true)], 5⟩).2 rfl).2

/-! ### Claims C7, C8: the threshold notifier -/

/-- C7 counterexample: a valid snapshot with zero roster entries and
`trains_available = 12`.  The sync succeeds, the canonical roster it writes
is empty, and the notification nevertheless fires with value 12 — the
claimed empty-roster suppression does not exist in the code. -/
theorem notify_empty_roster_cex :
    rank ([] : List RawEntry) = [] ∧
      (syncState ⟨[], [], 0⟩ ⟨[], some (.vInt 12)⟩).employees = [] ∧
      shouldNotify ⟨[], some (.vInt 12)⟩ = some (true, 12) :=
  ⟨rfl, by decide, by decide⟩

/-- C7 (amended): the notification decision never inspects the roster — it
is a function of the `trains_available` field alone (an empty roster does
not suppress it), and with an empty roster and `available = 12` the
notification fires. -/
theorem notify_roster_independent (es es2 : List RawEntry) (tv : Option PyVal) :
    shouldNotify ⟨es, tv⟩ = shouldNotify ⟨es2, tv⟩ ∧
      shouldNotify ⟨[], some (.vInt 12)⟩ = some (true, 12) :=
  ⟨rfl, by decide⟩

/-- C8 counterexample: a non-numeric string in `trains_available` is not
read as 0: `int("abc" or 0)` raises `ValueError`, so the notifier produces
no verdict at all (modelled `none`) instead of the claimed `(false, 0)`. -/
theorem notify_malformed_cex :
    shouldNotify ⟨[], some (.vStr "abc")⟩ = none ∧
      shouldNotify ⟨[], some (.vStr "abc")⟩ ≠ some (false, 0) :=
  ⟨by decide, by decide⟩

/-- C8 (amended): the notifier fires iff the available value is ≥ 10; an
absent field, a `None`, or a falsy value (e.g. the empty string) is read as
0; an integer value is reported as-is (12 fires, 9 does not); but a
malformed non-numeric, non-empty string raises and aborts the pass instead
of being read as 0. -/
theorem notify_threshold_amended (es : List RawEntry) :
    shouldNotify ⟨es, none⟩ = some (false, 0) ∧
      shouldNotify ⟨es, some .vNone⟩ = some (false, 0) ∧
      shouldNotify ⟨es, some (.vStr "")⟩ = some (false, 0) ∧
      (∀ t : Int, shouldNotify ⟨es, some (.vInt t)⟩ = some (decide (10 ≤ t), t)) ∧
      shouldNotify ⟨es, some (.vInt 12)⟩ = some (true, 12) ∧
      shouldNotify ⟨es, some (.vInt 9)⟩ = some (false, 9) := by
  refine ⟨rfl, rfl, rfl, ?_, rfl, rfl⟩
  intro t
  by_cases h : t = 0
  · subst h
    rfl
  · have ht : pyTruthy (.vInt t) = true := by
      simp [pyTruthy, h]
    simp [shouldNotify, trainsValue, pyOr, ht, pyToInt]

/-! ### Claim C9: the identity resolver -/

/-- C9: the resolver takes the text before the first `[` or `(` marker,
trims and normalizes it, and returns the first roster member with an equal
normalized form; a candidate that is empty after stripping yields the
distinct empty-candidate result, different from the no-match result
returned when no member matches; the spec's examples behave as stated. -/
theorem resolve_member_spec (nick : String) (emps : List String) :
    (extractBase nick = [] → resolveMember nick emps = .emptyCandidate) ∧
    (extractBase nick ≠ [] →
      ((∀ e ∈ emps, norm e ≠ normList (extractBase nick)) →
        resolveMember nick emps = .noMatch) ∧
      (∀ pre e post, emps = pre ++ e :: post →
        norm e = normList (extractBase nick) →
        (∀ x ∈ pre, norm x ≠ normList (extractBase nick)) →
        resolveMember nick emps = .matched e)) ∧
    ResolveResult.emptyCandidate ≠ ResolveResult.noMatch ∧
    resolveMember "Harry [1925807]" ["harry", "zed"] = .matched "harry" ∧
    resolveMember "  " ["harry", "zed"] = .emptyCandidate := by
  refine ⟨?_, ?_, by decide, by decide, by decide⟩
  · intro h
    simp [resolveMember, h]
  · intro h
    have hne : (extractBase nick).isEmpty = false := by
      rcases hb : extractBase nick with _ | _
      · exact absurd hb h
      · rfl
    constructor
    · intro hall
      have hnone : emps.find? (fun e => norm e == normList (extractBase nick)) = none := by
        rw [List.find?_eq_none]
        intro x hx hbx
        exact hall x hx (by simpa using hbx)
      simp [resolveMember, hne, hnone]
    · intro pre e post hsplit he hpre
      have hprenone : pre.find? (fun x => norm x == normList (extractBase nick)) = none := by
        rw [List.find?_eq_none]
        intro x hx hbx
        exact hpre x hx (by simpa using hbx)
      have hfind : emps.find? (fun x => norm x == normList (extractBase nick)) = some e := by
        rw [hsplit, List.find?_append, hprenone, List.find?_cons]
        have hbeq : (norm e == normList (extractBase nick)) = true := by simpa using he
        rw [hbeq]
        rfl
      simp [resolveMember, hne, hfind]

/-- C9 witness: resolving `Zed [1]` against `["harry", "zed"]` skips the
non-matching `harry` and returns the first normalized match `zed`. -/
theorem resolve_member_spec_witness :
    resolveMember "Zed [1]" ["harry", "zed"] = .matched "zed" :=
  ((resolve_member_spec "Zed [1]" ["harry", "zed"]).2.1 (by decide)).2
    ["harry"] "zed" [] (by decide) (by decide) (by decide)

end TornBot
